import Mathlib

/-
Verification of the clause segmentation and register-transformation core of
to-polite-rs (src/lib.rs). The morphological tokenizer and the inflection
table engine (crates typed_igo and conjugation) are external collaborators:
tokenizer output is modelled as a list of Morpheme values, and the inflection
adapter as an abstract function parameter of type Convert. Rust panics are
modelled as Option.none propagated to the caller.
-/

namespace ToPolite

/-- Sub-category of postpositional word classes, restricted to the
distinctions the core inspects (typed_igo's remaining variants collapse
into otherPostp, which the core treats uniformly). -/
inductive PostpSub where
  | conjunction
  | endSub
  | suppParaEnd
  | otherPostp
deriving DecidableEq

/-- Sub-category of symbol word classes, restricted to the distinctions the
core inspects. -/
inductive SymbolSub where
  | period
  | comma
  | openParen
  | closeParen
  | otherSym
deriving DecidableEq

/-- Word class of a token. typed_igo's Verb and Adjective carry sub-type
payloads, but every match in the core uses a wildcard for them, so they are
collapsed to parameterless constructors; unused classes collapse to other. -/
inductive WordClass where
  | noun
  | verb
  | adjective
  | auxiliaryVerb
  | postpositional (p : PostpSub)
  | symbol (s : SymbolSub)
  | other
deriving DecidableEq

/-- Conjugation form (typed_igo ConjugationForm), restricted to the forms the
core mentions; all remaining forms collapse to otherForm. F::None is
formNone. -/
inductive ConjugationForm where
  | basic
  | negative
  | negativeU
  | continuous
  | continuousTa
  | continuousDe
  | formNone
  | otherForm
deriving DecidableEq

/-- Conjugation kind / inflection paradigm (typed_igo ConjugationKind),
restricted to the kinds the core mentions; all remaining kinds collapse to
otherKind. K::None is kindNone. -/
inductive ConjugationKind where
  | sahenSuruConnected
  | sahenZuruConnected
  | ichidanRu
  | specialNai
  | specialTai
  | specialDa
  | specialTa
  | specialDesu
  | specialMasu
  | godanRaAru
  | kindNone
  | otherKind
deriving DecidableEq

/-- Conjugation info of a token: paradigm and current form. -/
structure Conjugation where
  kind : ConjugationKind
  form : ConjugationForm
deriving DecidableEq

/-- A token produced by the external tokenizer (typed_igo Morpheme). -/
structure Morpheme where
  surface : String
  wordclass : WordClass
  conjugation : Conjugation
  basic : String
  reading : String
  pronunciation : String
  start : Nat
deriving DecidableEq

/-- A clause: body tokens plus an optional trailing separator token
(struct Part in the source). -/
structure Part where
  morphs : List Morpheme
  sep : Option Morpheme
deriving DecidableEq

/-- The external inflection adapter, conjugation::convert:
(surface, paradigm, fromForm, toForm) to an inflected surface, or failure
(modelled as none). -/
abbrev Convert := String → ConjugationKind → ConjugationForm → ConjugationForm → Option String

/-- An adapter that fails on every input; used to observe which code paths
consult the adapter and how its failure propagates. -/
def none_convert : Convert := fun _ _ _ _ => none

/-- morphs_to_string: concatenation of the surfaces of a token list. -/
def morphs_to_string (morphs : List Morpheme) : String :=
  String.join (morphs.map Morpheme.surface)

/-- Surface of the optional separator (sep.map(surface).unwrap_or("")). -/
def sep_surface (sep : Option Morpheme) : String :=
  (sep.map Morpheme.surface).getD ""

/-- True for the two sentence-final-particle word classes peeled by
take_ends: Postpositional(End) and Postpositional(SupplementaryParallelEnd). -/
def isEndPost (m : Morpheme) : Bool :=
  match m.wordclass with
  | WordClass.postpositional PostpSub.endSub => true
  | WordClass.postpositional PostpSub.suppParaEnd => true
  | _ => false

/-- take_ends: pop sentence-final particles off the tail of the body and
return them concatenated in their original order, together with the
remaining body. The source's pop/push loop is translated as
dropWhile/takeWhile on the reversed list. -/
def take_ends (morphs : List Morpheme) : List Morpheme × String :=
  ((morphs.reverse.dropWhile isEndPost).reverse,
   String.join (((morphs.reverse.takeWhile isEndPost).reverse).map Morpheme.surface))

/-- Vec::pop: split a list into its initial segment and its last element. -/
def pop_last (xs : List Morpheme) : Option (List Morpheme × Morpheme) :=
  match xs.getLast? with
  | none => none
  | some x => some (xs.dropLast, x)

/-- The copula closure fixlast in Part::into_polite: the five supported
(lemma, target-slot) pairs; any other pair panics (UnsupportedCopulaPairing),
modelled as none. -/
def fixlast_polite (orig : String) (lastForm : ConjugationForm) : Option String :=
  match orig, lastForm with
  | "です", ConjugationForm.basic => some "です"
  | "です", ConjugationForm.negativeU => some "でしょ"
  | "ます", ConjugationForm.basic => some "ます"
  | "ます", ConjugationForm.negative => some "ませ"
  | "ます", ConjugationForm.negativeU => some "ましょ"
  | _, _ => none

/-- Modelled from the spec: the copula table of section 4.2,
{(です,Basic)→です, (です,NegativeU)→でしょ, (ます,Basic)→ます,
(ます,Negative)→ませ, (ます,NegativeU)→ましょ}, written independently of the
source for comparison with fixlast_polite. -/
def copula_table_spec (orig : String) (lastForm : ConjugationForm) : Option String :=
  if orig = "です" ∧ lastForm = ConjugationForm.basic then some "です"
  else if orig = "です" ∧ lastForm = ConjugationForm.negativeU then some "でしょ"
  else if orig = "ます" ∧ lastForm = ConjugationForm.basic then some "ます"
  else if orig = "ます" ∧ lastForm = ConjugationForm.negative then some "ませ"
  else if orig = "ます" ∧ lastForm = ConjugationForm.negativeU then some "ましょ"
  else none

/-- The closure fix in Part::into_impolite: try the target forms in order
through the adapter; the first success wins, and if every attempt fails the
original surface is returned unchanged. -/
def fix_conv (c : Convert) (orig : String) (kind : ConjugationKind)
    (fromForm : ConjugationForm) (toForms : List ConjugationForm) : String :=
  (toForms.findSome? (fun t => c orig kind fromForm t)).getD orig

/-- The closure fixlast in Part::into_impolite: dispatch the six known
lemmas to fix with their paradigms; any other lemma panics ("unsupported
conversion"), modelled as none. Every call site passes one of the six. -/
def fixlast_impolite (c : Convert) (lastForms : List ConjugationForm)
    (orig : String) : Option String :=
  match orig with
  | "だ" => some (fix_conv c "だ" ConjugationKind.specialDa ConjugationForm.basic lastForms)
  | "た" => some (fix_conv c "た" ConjugationKind.specialTa ConjugationForm.basic lastForms)
  | "ある" => some (fix_conv c "ある" ConjugationKind.godanRaAru ConjugationForm.basic lastForms)
  | "です" => some (fix_conv c "です" ConjugationKind.specialDesu ConjugationForm.basic lastForms)
  | "ます" => some (fix_conv c "ます" ConjugationKind.specialMasu ConjugationForm.basic lastForms)
  | "ない" => some (fix_conv c "ない" ConjugationKind.specialNai ConjugationForm.basic lastForms)
  | _ => none

/-- make_continuous: turn a plain verb form into the stem preceding ます,
dispatching on the inflection paradigm. The zuru branch slices the bytes of
"ずる" (two three-byte characters) off the lemma, modelled at character level
as dropping the last two characters of its character list. The expect calls
on adapter failure are modelled as none. -/
def make_continuous (c : Convert) (basic surface : String)
    (conjugation : Conjugation) : Option String :=
  match conjugation.kind with
  | ConjugationKind.sahenSuruConnected =>
      c surface conjugation.kind conjugation.form ConjugationForm.negative
  | ConjugationKind.sahenZuruConnected =>
      some (String.mk (basic.data.dropLast.dropLast) ++ "じ")
  | ConjugationKind.ichidanRu => some basic
  | ConjugationKind.specialNai =>
      c surface conjugation.kind conjugation.form ConjugationForm.continuousDe
  | ConjugationKind.specialTai =>
      c surface conjugation.kind conjugation.form ConjugationForm.continuousDe
  | k => c surface k conjugation.form ConjugationForm.continuous

/-- create_period: the synthetic Period token appended by push_last when the
input lacks terminal punctuation (start is usize !0). -/
def create_period (basic : String) : Morpheme :=
  ⟨basic, WordClass.symbol SymbolSub.period,
   ⟨ConjugationKind.kindNone, ConjugationForm.formNone⟩,
   basic, basic, basic, 18446744073709551615⟩

/-- handle_paren_count: increment the u32 depth counter on OpenParen and
decrement it on CloseParen, with Rust release-mode u32 wrapping arithmetic
(a decrement at level 0 wraps to 2^32 - 1; in debug builds it panics). -/
def handle_paren_count (level : Nat) (m : Morpheme) : Nat :=
  match m.wordclass with
  | WordClass.symbol SymbolSub.openParen => (level + 1) % 4294967296
  | WordClass.symbol SymbolSub.closeParen => (level + 4294967295) % 4294967296
  | _ => level

/-- should_be_break: a clause break is declared at the current token when the
depth counter is not at least 1 and the token is a Period symbol or a
conjunction postpositional whose lemma is が. -/
def should_be_break (level : Nat) (m : Morpheme) : Bool :=
  if 1 ≤ level then false
  else
    match m.wordclass with
    | WordClass.symbol SymbolSub.period => true
    | WordClass.postpositional PostpSub.conjunction => m.basic == "が"
    | _ => false

/-- The scan loop of break_into_parts: the imperative splitter's state
(paren level, accumulated body, remaining input) threaded explicitly; the
empty-input / end-of-input case is push_last, which closes a trailing
unflushed body with a synthetic period. -/
def split_loop (level : Nat) (part : List Morpheme) :
    List Morpheme → List Part
  | [] => if part.isEmpty then [] else [⟨part, some (create_period "。")⟩]
  | m :: rest =>
      let level1 := handle_paren_count level m
      if should_be_break level1 m then
        ⟨part, some m⟩ :: split_loop level1 [] rest
      else
        split_loop level1 (part ++ [m]) rest

/-- Splitter::break_into_parts: split a token stream into clauses. -/
def break_into_parts (morphs : List Morpheme) : List Part :=
  split_loop 0 [] morphs

/-- Concatenation, in order, of the bodies and separators of a clause list
(the token sequence the clauses stand for). -/
def flatten_parts (parts : List Part) : List Morpheme :=
  (parts.map (fun p => p.morphs ++ p.sep.toList)).flatten

mutual

/-- The rule dispatch of Part::into_polite on the predicate head: morphs is
the body before the head (the source's morphs after the pop), tok the popped
head. Returns the clause text before particles and separator are reattached;
none models a panic. The rules appear in the source's match order. -/
def into_polite_core (c : Convert) (morphs : List Morpheme) (tok : Morpheme)
    (lastForm : ConjugationForm) : Option String :=
  if tok.basic = "です" ∨ tok.basic = "ます" then
    some (morphs_to_string morphs ++ tok.surface)
  else if tok.wordclass = WordClass.auxiliaryVerb ∧ tok.basic = "だ" then
    (fixlast_polite "です" lastForm).map (fun s => morphs_to_string morphs ++ s)
  else if tok.wordclass = WordClass.verb then
    (make_continuous c tok.basic tok.surface tok.conjugation).bind (fun cont =>
      (fixlast_polite "ます" lastForm).map (fun s =>
        morphs_to_string morphs ++ cont ++ s))
  else if tok.wordclass = WordClass.auxiliaryVerb ∧ tok.basic = "ある" then
    match pop_last morphs with
    | some (ms, prior) =>
        if prior.wordclass = WordClass.auxiliaryVerb ∧ prior.basic = "だ" then
          (fixlast_polite "です" lastForm).map (fun s => morphs_to_string ms ++ s)
        else
          (fixlast_polite "ます" lastForm).map (fun s =>
            morphs_to_string ms ++ prior.surface ++ "あり" ++ s)
    | none => (fixlast_polite "ます" lastForm).map (fun s => "あり" ++ s)
  else if (tok.wordclass = WordClass.auxiliaryVerb ∨
      tok.wordclass = WordClass.adjective) ∧ tok.basic = "ない" then
    match pop_last morphs with
    | some (ms, prior) =>
        if prior.wordclass = WordClass.auxiliaryVerb ∧ prior.basic = "で" then
          some (morphs_to_string ms ++ "ではありません")
        else if prior.wordclass = WordClass.verb then
          (make_continuous c prior.basic prior.surface prior.conjugation).map (fun cont =>
            morphs_to_string ms ++ cont ++ "ません")
        else if prior.wordclass = WordClass.adjective then
          some (morphs_to_string ms ++ prior.surface ++ "ありません")
        else some (morphs_to_string ms ++ prior.surface ++ "ありません")
    | none => some "ありません"
  else if tok.wordclass = WordClass.auxiliaryVerb ∧ tok.basic = "た" then
    match h : pop_last morphs with
    | some (ms, prior) =>
        if prior.basic = "です" ∨ prior.basic = "ます" then
          some (morphs_to_string ms ++ prior.surface ++ "た")
        else if prior.wordclass = WordClass.verb then
          (make_continuous c prior.basic prior.surface prior.conjugation).map (fun cont =>
            morphs_to_string ms ++ cont ++ "ました")
        else if prior.wordclass = WordClass.auxiliaryVerb ∧ prior.basic = "だ" then
          some (morphs_to_string ms ++ "でした")
        else if prior.wordclass = WordClass.auxiliaryVerb ∧ prior.basic = "ある" then
          some (morphs_to_string ms ++ "した")
        else if prior.basic = "ない" then
          (Part.into_polite c ⟨ms ++ [prior], none⟩ ConjugationForm.basic).map
            (fun w => w ++ "でした")
        else some (morphs_to_string ms ++ prior.surface ++ "たです")
    | none => some "たです"
  else if tok.basic = "う" then
    (Part.into_polite c ⟨morphs, none⟩ ConjugationForm.negativeU).map (fun w => w ++ "う")
  else if tok.basic = "ん" then
    (Part.into_polite c ⟨morphs, none⟩ ConjugationForm.negative).map (fun w => w ++ "ん")
  else some (morphs_to_string morphs ++ tok.surface ++ "です")
termination_by 2 * (morphs.length + 1)
decreasing_by
· simp only [pop_last] at h
  split at h
  · cases h
  · rename_i x heq
    simp only [Option.some.injEq, Prod.mk.injEq] at h
    obtain ⟨h1, h2⟩ := h
    subst h1
    have hlen : morphs.length ≠ 0 := by
      intro h0
      rw [List.length_eq_zero] at h0
      rw [h0] at heq
      simp at heq
    simp only [List.length_append, List.length_dropLast, List.length_cons,
      List.length_nil]
    omega
· omega
· omega

/-- Part::into_polite: peel trailing sentence-final particles, pop the
predicate head, dispatch via into_polite_core, then reattach particles and
separator surface. none models a panic. -/
def Part.into_polite (c : Convert) (p : Part) (lastForm : ConjugationForm) :
    Option String :=
  match h : pop_last (take_ends p.morphs).1 with
  | none => some ((take_ends p.morphs).2 ++ sep_surface p.sep)
  | some (ms, tok) =>
      (into_polite_core c ms tok lastForm).map
        (fun w => w ++ (take_ends p.morphs).2 ++ sep_surface p.sep)
termination_by 2 * p.morphs.length + 1
decreasing_by
· simp only [pop_last] at h
  split at h
  · cases h
  · rename_i x heq
    simp only [Option.some.injEq, Prod.mk.injEq] at h
    obtain ⟨h1, h2⟩ := h
    subst h1
    have hle : (take_ends p.morphs).1.length ≤ p.morphs.length := by
      simp only [take_ends, List.length_reverse]
      exact le_trans (List.Sublist.length_le (List.dropWhile_sublist _))
        (le_of_eq (List.length_reverse _))
    have hne : (take_ends p.morphs).1.length ≠ 0 := by
      intro h0
      rw [List.length_eq_zero] at h0
      rw [h0] at heq
      simp at heq
    simp only [List.length_dropLast]
    omega

end

mutual

/-- The rule dispatch of Part::into_impolite on the predicate head: ends is
the already-peeled particle string (the source's ends, consulted via
is_empty in the です rule), morphs the body before the head, tok the popped
head. Returns the clause text before particles and separator are
reattached; none models a panic. Rules appear in the source's match order. -/
def into_impolite_core (c : Convert) (ends : String) (morphs : List Morpheme)
    (tok : Morpheme) (lastForms : List ConjugationForm) : Option String :=
  if tok.wordclass = WordClass.auxiliaryVerb ∧ tok.basic = "だ" then
    (fixlast_impolite c lastForms "だ").map (fun s => morphs_to_string morphs ++ s)
  else if tok.wordclass = WordClass.auxiliaryVerb ∧ tok.basic = "ある" then
    (fixlast_impolite c lastForms "ある").map (fun s => morphs_to_string morphs ++ s)
  else if tok.wordclass = WordClass.auxiliaryVerb ∧ tok.basic = "です" then
    match pop_last morphs with
    | some (ms, prior) =>
        if prior.wordclass = WordClass.adjective then
          some (morphs_to_string ms ++ prior.surface)
        else if prior.wordclass = WordClass.auxiliaryVerb ∧ prior.basic = "た" then
          (fixlast_impolite c lastForms "た").map (fun s => morphs_to_string ms ++ s)
        else
          (if ends.isEmpty then fixlast_impolite c lastForms "だ" else some "").map
            (fun s => morphs_to_string ms ++ prior.surface ++ s)
    | none => if ends.isEmpty then fixlast_impolite c lastForms "だ" else some ""
  else if tok.wordclass = WordClass.auxiliaryVerb ∧ tok.basic = "ます" then
    match pop_last morphs with
    | some (ms, prior) =>
        if prior.wordclass = WordClass.verb then
          some (morphs_to_string ms ++
            fix_conv c prior.surface prior.conjugation.kind prior.conjugation.form lastForms)
        else some (morphs_to_string ms ++ prior.surface)
    | none => some ""
  else if tok.wordclass = WordClass.auxiliaryVerb ∧ tok.basic = "う" then
    match pop_last morphs with
    | some (ms, prior) =>
        if prior.wordclass = WordClass.auxiliaryVerb ∧ prior.basic = "です" then
          some (morphs_to_string ms ++ "だろう")
        else if prior.wordclass = WordClass.auxiliaryVerb ∧ prior.basic = "ます" then
          match pop_last ms with
          | some (ms2, further) =>
              some (morphs_to_string ms2 ++
                fix_conv c further.surface further.conjugation.kind further.conjugation.form
                  [ConjugationForm.negativeU, ConjugationForm.negative] ++ "う")
          | none => some "う"
        else some (morphs_to_string ms ++ prior.surface ++ "う")
    | none => some "う"
  else if tok.wordclass = WordClass.auxiliaryVerb ∧ tok.basic = "ん" then
    match pop_last morphs with
    | some (ms, prior) =>
        if prior.wordclass = WordClass.auxiliaryVerb ∧ prior.basic = "ます" then
          match pop_last ms with
          | some (ms2, further) =>
              if further.wordclass = WordClass.verb ∧ further.basic = "ある" then
                (fixlast_impolite c lastForms "ない").map (fun s =>
                  morphs_to_string ms2 ++ s)
              else
                (fixlast_impolite c lastForms "ない").map (fun s =>
                  morphs_to_string ms2 ++
                    fix_conv c further.surface further.conjugation.kind
                      further.conjugation.form [ConjugationForm.negative] ++ s)
          | none => some ""
        else
          (fixlast_impolite c lastForms "ない").map (fun s =>
            morphs_to_string ms ++
              fix_conv c prior.surface prior.conjugation.kind prior.conjugation.form
                [ConjugationForm.negative] ++ s)
    | none => fixlast_impolite c lastForms "ない"
  else if tok.wordclass = WordClass.auxiliaryVerb ∧ tok.basic = "た" then
    match h : pop_last morphs with
    | some (ms, prior) =>
        if prior.wordclass = WordClass.auxiliaryVerb ∧ prior.basic = "です" then
          (Part.into_impolite c ⟨ms ++ [prior], none⟩
              [ConjugationForm.continuousTa, ConjugationForm.continuous]).bind (fun w =>
            (fixlast_impolite c lastForms "た").map (fun s => w ++ s))
        else if prior.wordclass = WordClass.auxiliaryVerb ∧ prior.basic = "ます" then
          match pop_last ms with
          | some (ms2, further) =>
              (fixlast_impolite c lastForms "た").map (fun s =>
                morphs_to_string ms2 ++
                  fix_conv c further.surface further.conjugation.kind
                    further.conjugation.form
                    [ConjugationForm.continuousTa, ConjugationForm.continuous] ++ s)
          | none => fixlast_impolite c lastForms "た"
        else
          (fixlast_impolite c lastForms "た").map (fun s =>
            morphs_to_string ms ++
              fix_conv c prior.surface prior.conjugation.kind prior.conjugation.form
                [ConjugationForm.continuousTa, ConjugationForm.continuous] ++ s)
    | none => fixlast_impolite c lastForms "た"
  else
    some (morphs_to_string morphs ++
      fix_conv c tok.surface tok.conjugation.kind tok.conjugation.form lastForms)
termination_by 2 * (morphs.length + 1)
decreasing_by
· simp only [pop_last] at h
  split at h
  · cases h
  · rename_i x heq
    simp only [Option.some.injEq, Prod.mk.injEq] at h
    obtain ⟨h1, h2⟩ := h
    subst h1
    have hlen : morphs.length ≠ 0 := by
      intro h0
      rw [List.length_eq_zero] at h0
      rw [h0] at heq
      simp at heq
    simp only [List.length_append, List.length_dropLast, List.length_cons,
      List.length_nil]
    omega

/-- Part::into_impolite: peel trailing sentence-final particles, pop the
predicate head, dispatch via into_impolite_core, then reattach particles
and separator surface. none models a panic. -/
def Part.into_impolite (c : Convert) (p : Part)
    (lastForms : List ConjugationForm) : Option String :=
  match h : pop_last (take_ends p.morphs).1 with
  | none => some ((take_ends p.morphs).2 ++ sep_surface p.sep)
  | some (ms, tok) =>
      (into_impolite_core c (take_ends p.morphs).2 ms tok lastForms).map
        (fun w => w ++ (take_ends p.morphs).2 ++ sep_surface p.sep)
termination_by 2 * p.morphs.length + 1
decreasing_by
· simp only [pop_last] at h
  split at h
  · cases h
  · rename_i x heq
    simp only [Option.some.injEq, Prod.mk.injEq] at h
    obtain ⟨h1, h2⟩ := h
    subst h1
    have hle : (take_ends p.morphs).1.length ≤ p.morphs.length := by
      simp only [take_ends, List.length_reverse]
      exact le_trans (List.Sublist.length_le (List.dropWhile_sublist _))
        (le_of_eq (List.length_reverse _))
    have hne : (take_ends p.morphs).1.length ≠ 0 := by
      intro h0
      rw [List.length_eq_zero] at h0
      rw [h0] at heq
      simp at heq
    simp only [List.length_dropLast]
    omega

end

/-- to_polite_sentence on an already-tokenized input: split into clauses and
render each politely at the Basic slot, concatenating in order. A panic in
any clause (none) aborts the whole conversion. -/
def to_polite_sentence (c : Convert) (morphs : List Morpheme) : Option String :=
  ((break_into_parts morphs).mapM (fun p => Part.into_polite c p ConjugationForm.basic)).map
    String.join

/-- to_impolite_sentence on an already-tokenized input: split into clauses
and render each plainly at the Basic slot, concatenating in order. -/
def to_impolite_sentence (c : Convert) (morphs : List Morpheme) : Option String :=
  ((break_into_parts morphs).mapM
      (fun p => Part.into_impolite c p [ConjugationForm.basic])).map
    String.join

mutual

/-- Number of nested transformer invocations performed by into_polite_core
below a given dispatch: mirrors into_polite_core's branch structure exactly,
with 0 for every non-recursive rule and the depth of the recursive
invocation for the three recursive rules (た over ない, う, ん). Branch
selection in into_polite_core depends only on token data, never on the
adapter or the target slot, so neither is a parameter here. -/
def into_polite_core_depth (morphs : List Morpheme) (tok : Morpheme) : Nat :=
  if tok.basic = "です" ∨ tok.basic = "ます" then 0
  else if tok.wordclass = WordClass.auxiliaryVerb ∧ tok.basic = "だ" then 0
  else if tok.wordclass = WordClass.verb then 0
  else if tok.wordclass = WordClass.auxiliaryVerb ∧ tok.basic = "ある" then 0
  else if (tok.wordclass = WordClass.auxiliaryVerb ∨
      tok.wordclass = WordClass.adjective) ∧ tok.basic = "ない" then 0
  else if tok.wordclass = WordClass.auxiliaryVerb ∧ tok.basic = "た" then
    match h : pop_last morphs with
    | some (ms, prior) =>
        if prior.basic = "です" ∨ prior.basic = "ます" then 0
        else if prior.wordclass = WordClass.verb then 0
        else if prior.wordclass = WordClass.auxiliaryVerb ∧ prior.basic = "だ" then 0
        else if prior.wordclass = WordClass.auxiliaryVerb ∧ prior.basic = "ある" then 0
        else if prior.basic = "ない" then into_polite_depth ⟨ms ++ [prior], none⟩
        else 0
    | none => 0
  else if tok.basic = "う" then into_polite_depth ⟨morphs, none⟩
  else if tok.basic = "ん" then into_polite_depth ⟨morphs, none⟩
  else 0
termination_by 2 * (morphs.length + 1)
decreasing_by
· simp only [pop_last] at h
  split at h
  · cases h
  · rename_i x heq
    simp only [Option.some.injEq, Prod.mk.injEq] at h
    obtain ⟨h1, h2⟩ := h
    subst h1
    have hlen : morphs.length ≠ 0 := by
      intro h0
      rw [List.length_eq_zero] at h0
      rw [h0] at heq
      simp at heq
    simp only [List.length_append, List.length_dropLast, List.length_cons,
      List.length_nil]
    omega
· omega
· omega

/-- Recursion depth of Part.into_polite: the number of (possibly nested)
into_polite invocations needed for a clause, mirroring the definition's
recursion structure. -/
def into_polite_depth (p : Part) : Nat :=
  match h : pop_last (take_ends p.morphs).1 with
  | none => 1
  | some (ms, tok) => 1 + into_polite_core_depth ms tok
termination_by 2 * p.morphs.length + 1
decreasing_by
· simp only [pop_last] at h
  split at h
  · cases h
  · rename_i x heq
    simp only [Option.some.injEq, Prod.mk.injEq] at h
    obtain ⟨h1, h2⟩ := h
    subst h1
    have hle : (take_ends p.morphs).1.length ≤ p.morphs.length := by
      simp only [take_ends, List.length_reverse]
      exact le_trans (List.Sublist.length_le (List.dropWhile_sublist _))
        (le_of_eq (List.length_reverse _))
    have hne : (take_ends p.morphs).1.length ≠ 0 := by
      intro h0
      rw [List.length_eq_zero] at h0
      rw [h0] at heq
      simp at heq
    simp only [List.length_dropLast]
    omega

end

mutual

/-- Number of nested transformer invocations performed by
into_impolite_core below a given dispatch: mirrors into_impolite_core's
branch structure, with 0 for every non-recursive rule and the depth of the
recursive invocation for the only recursive rule (た over です). Branch
selection depends only on token data. -/
def into_impolite_core_depth (morphs : List Morpheme) (tok : Morpheme) : Nat :=
  if tok.wordclass = WordClass.auxiliaryVerb ∧ tok.basic = "だ" then 0
  else if tok.wordclass = WordClass.auxiliaryVerb ∧ tok.basic = "ある" then 0
  else if tok.wordclass = WordClass.auxiliaryVerb ∧ tok.basic = "です" then 0
  else if tok.wordclass = WordClass.auxiliaryVerb ∧ tok.basic = "ます" then 0
  else if tok.wordclass = WordClass.auxiliaryVerb ∧ tok.basic = "う" then 0
  else if tok.wordclass = WordClass.auxiliaryVerb ∧ tok.basic = "ん" then 0
  else if tok.wordclass = WordClass.auxiliaryVerb ∧ tok.basic = "た" then
    match h : pop_last morphs with
    | some (ms, prior) =>
        if prior.wordclass = WordClass.auxiliaryVerb ∧ prior.basic = "です" then
          into_impolite_depth ⟨ms ++ [prior], none⟩
        else 0
    | none => 0
  else 0
termination_by 2 * (morphs.length + 1)
decreasing_by
· simp only [pop_last] at h
  split at h
  · cases h
  · rename_i x heq
    simp only [Option.some.injEq, Prod.mk.injEq] at h
    obtain ⟨h1, h2⟩ := h
    subst h1
    have hlen : morphs.length ≠ 0 := by
      intro h0
      rw [List.length_eq_zero] at h0
      rw [h0] at heq
      simp at heq
    simp only [List.length_append, List.length_dropLast, List.length_cons,
      List.length_nil]
    omega

/-- Recursion depth of Part.into_impolite, mirroring the definition's
recursion structure. -/
def into_impolite_depth (p : Part) : Nat :=
  match h : pop_last (take_ends p.morphs).1 with
  | none => 1
  | some (ms, tok) => 1 + into_impolite_core_depth ms tok
termination_by 2 * p.morphs.length + 1
decreasing_by
· simp only [pop_last] at h
  split at h
  · cases h
  · rename_i x heq
    simp only [Option.some.injEq, Prod.mk.injEq] at h
    obtain ⟨h1, h2⟩ := h
    subst h1
    have hle : (take_ends p.morphs).1.length ≤ p.morphs.length := by
      simp only [take_ends, List.length_reverse]
      exact le_trans (List.Sublist.length_le (List.dropWhile_sublist _))
        (le_of_eq (List.length_reverse _))
    have hne : (take_ends p.morphs).1.length ≠ 0 := by
      intro h0
      rw [List.length_eq_zero] at h0
      rw [h0] at heq
      simp at heq
    simp only [List.length_dropLast]
    omega

end

/-- Sample non-inflecting token (noun 犬) for concrete evaluations. -/
def tok_inu : Morpheme :=
  ⟨"犬", WordClass.noun, ⟨ConjugationKind.kindNone, ConjugationForm.formNone⟩,
   "犬", "イヌ", "イヌ", 0⟩

/-- Sample auxiliary-verb copula token だ. -/
def tok_da : Morpheme :=
  ⟨"だ", WordClass.auxiliaryVerb, ⟨ConjugationKind.specialDa, ConjugationForm.basic⟩,
   "だ", "ダ", "ダ", 0⟩

/-- Sample auxiliary-verb token です. -/
def tok_desu : Morpheme :=
  ⟨"です", WordClass.auxiliaryVerb, ⟨ConjugationKind.specialDesu, ConjugationForm.basic⟩,
   "です", "デス", "デス", 0⟩

/-- Sample auxiliary-verb token ます. -/
def tok_masu : Morpheme :=
  ⟨"ます", WordClass.auxiliaryVerb, ⟨ConjugationKind.specialMasu, ConjugationForm.basic⟩,
   "ます", "マス", "マス", 0⟩

/-- Sample verb token 書く. -/
def tok_kaku : Morpheme :=
  ⟨"書く", WordClass.verb, ⟨ConjugationKind.otherKind, ConjugationForm.basic⟩,
   "書く", "カク", "カク", 0⟩

/-- Sample sentence-final particle token か (Postpositional End). -/
def tok_ka : Morpheme :=
  ⟨"か", WordClass.postpositional PostpSub.endSub,
   ⟨ConjugationKind.kindNone, ConjugationForm.formNone⟩, "か", "カ", "カ", 0⟩

/-- Sample period symbol token 。. -/
def tok_period : Morpheme :=
  ⟨"。", WordClass.symbol SymbolSub.period,
   ⟨ConjugationKind.kindNone, ConjugationForm.formNone⟩, "。", "。", "。", 0⟩

/-- Sample close-paren symbol token 」. -/
def tok_close : Morpheme :=
  ⟨"」", WordClass.symbol SymbolSub.closeParen,
   ⟨ConjugationKind.kindNone, ConjugationForm.formNone⟩, "」", "」", "」", 0⟩

theorem pop_last_concat (xs : List Morpheme) (x : Morpheme) :
    pop_last (xs ++ [x]) = some (xs, x) := by
  unfold pop_last
  rw [List.getLast?_concat]
  simp

theorem pop_last_length {xs ms : List Morpheme} {x : Morpheme}
    (h : pop_last xs = some (ms, x)) : ms.length + 1 = xs.length := by
  unfold pop_last at h
  split at h
  · cases h
  · rename_i y heq
    simp only [Option.some.injEq, Prod.mk.injEq] at h
    obtain ⟨h1, h2⟩ := h
    subst h1
    have hne : xs ≠ [] := by
      intro h0
      subst h0
      simp at heq
    have hpos : 0 < xs.length := List.length_pos.mpr hne
    simp only [List.length_dropLast]
    omega

theorem take_ends_fst_length_le (morphs : List Morpheme) :
    (take_ends morphs).1.length ≤ morphs.length := by
  simp only [take_ends, List.length_reverse]
  exact le_trans (List.Sublist.length_le (List.dropWhile_sublist _))
    (le_of_eq (List.length_reverse _))

theorem take_ends_append (pre suf : List Morpheme)
    (hsuf : ∀ m ∈ suf, isEndPost m = true)
    (hpre : ∀ tok, pre.getLast? = some tok → isEndPost tok = false) :
    take_ends (pre ++ suf) = (pre, String.join (suf.map Morpheme.surface)) := by
  unfold take_ends
  rw [List.reverse_append]
  have hsufr : ∀ m ∈ suf.reverse, isEndPost m = true := by
    intro m hm
    exact hsuf m (List.mem_reverse.mp hm)
  rw [List.dropWhile_append_of_pos hsufr, List.takeWhile_append_of_pos hsufr]
  have hdrop : pre.reverse.dropWhile isEndPost = pre.reverse ∧
      pre.reverse.takeWhile isEndPost = [] := by
    rcases List.eq_nil_or_concat pre with rfl | ⟨l, a, rfl⟩
    · simp
    · have ha : isEndPost a = false :=
        hpre a (by rw [List.concat_eq_append, List.getLast?_concat])
      rw [List.concat_eq_append, List.reverse_concat]
      constructor
      · rw [List.dropWhile_cons_of_neg (by simp [ha])]
      · rw [List.takeWhile_cons_of_neg (by simp [ha])]
  rw [hdrop.1, hdrop.2]
  simp

theorem into_polite_split (c : Convert) (lastForm : ConjugationForm)
    (sep : Option Morpheme) (pre : List Morpheme) (tok : Morpheme)
    (suf : List Morpheme) (hsuf : ∀ m ∈ suf, isEndPost m = true)
    (htok : isEndPost tok = false) :
    Part.into_polite c ⟨pre ++ tok :: suf, sep⟩ lastForm =
      (into_polite_core c pre tok lastForm).map
        (fun w => w ++ String.join (suf.map Morpheme.surface) ++ sep_surface sep) := by
  have hte : take_ends (pre ++ tok :: suf) =
      (pre ++ [tok], String.join (suf.map Morpheme.surface)) := by
    have heq : pre ++ tok :: suf = (pre ++ [tok]) ++ suf := by simp
    rw [heq]
    apply take_ends_append _ _ hsuf
    intro t ht
    rw [List.getLast?_concat] at ht
    injection ht with h1
    subst h1
    exact htok
  rw [Part.into_polite.eq_def]
  split
  · rename_i h
    rw [hte, pop_last_concat] at h
    cases h
  · rename_i ms tok2 h
    rw [hte, pop_last_concat] at h
    injection h with h1
    injection h1 with h2 h3
    subst h2
    subst h3
    rw [hte]

theorem into_impolite_split (c : Convert) (lastForms : List ConjugationForm)
    (sep : Option Morpheme) (pre : List Morpheme) (tok : Morpheme)
    (suf : List Morpheme) (hsuf : ∀ m ∈ suf, isEndPost m = true)
    (htok : isEndPost tok = false) :
    Part.into_impolite c ⟨pre ++ tok :: suf, sep⟩ lastForms =
      (into_impolite_core c (String.join (suf.map Morpheme.surface)) pre tok
          lastForms).map
        (fun w => w ++ String.join (suf.map Morpheme.surface) ++ sep_surface sep) := by
  have hte : take_ends (pre ++ tok :: suf) =
      (pre ++ [tok], String.join (suf.map Morpheme.surface)) := by
    have heq : pre ++ tok :: suf = (pre ++ [tok]) ++ suf := by simp
    rw [heq]
    apply take_ends_append _ _ hsuf
    intro t ht
    rw [List.getLast?_concat] at ht
    injection ht with h1
    subst h1
    exact htok
  rw [Part.into_impolite.eq_def]
  split
  · rename_i h
    rw [hte, pop_last_concat] at h
    cases h
  · rename_i ms tok2 h
    rw [hte, pop_last_concat] at h
    injection h with h1
    injection h1 with h2 h3
    subst h2
    subst h3
    rw [hte]

theorem into_polite_all_ends (c : Convert) (lastForm : ConjugationForm)
    (sep : Option Morpheme) (es : List Morpheme)
    (hes : ∀ m ∈ es, isEndPost m = true) :
    Part.into_polite c ⟨es, sep⟩ lastForm =
      some (String.join (es.map Morpheme.surface) ++ sep_surface sep) := by
  have hte : take_ends es = ([], String.join (es.map Morpheme.surface)) := by
    have heq : es = ([] : List Morpheme) ++ es := rfl
    rw [heq]
    exact take_ends_append [] es hes (by intro t ht; cases ht)
  rw [Part.into_polite.eq_def]
  split
  · rename_i h
    rw [hte]
  · rename_i ms tok h
    rw [hte] at h
    cases h

theorem into_impolite_all_ends (c : Convert) (lastForms : List ConjugationForm)
    (sep : Option Morpheme) (es : List Morpheme)
    (hes : ∀ m ∈ es, isEndPost m = true) :
    Part.into_impolite c ⟨es, sep⟩ lastForms =
      some (String.join (es.map Morpheme.surface) ++ sep_surface sep) := by
  have hte : take_ends es = ([], String.join (es.map Morpheme.surface)) := by
    have heq : es = ([] : List Morpheme) ++ es := rfl
    rw [heq]
    exact take_ends_append [] es hes (by intro t ht; cases ht)
  rw [Part.into_impolite.eq_def]
  split
  · rename_i h
    rw [hte]
  · rename_i ms tok h
    rw [hte] at h
    cases h

theorem into_polite_core_already (c : Convert) (ms : List Morpheme)
    (tok : Morpheme) (lastForm : ConjugationForm)
    (hb : tok.basic = "です" ∨ tok.basic = "ます") :
    into_polite_core c ms tok lastForm =
      some (morphs_to_string ms ++ tok.surface) := by
  rw [into_polite_core.eq_def, if_pos hb]

theorem into_polite_core_da (c : Convert) (ms : List Morpheme) (tok : Morpheme)
    (lastForm : ConjugationForm) (hw : tok.wordclass = WordClass.auxiliaryVerb)
    (hb : tok.basic = "だ") :
    into_polite_core c ms tok lastForm =
      (fixlast_polite "です" lastForm).map (fun s => morphs_to_string ms ++ s) := by
  rw [into_polite_core.eq_def, if_neg (by rw [hb]; decide), if_pos ⟨hw, hb⟩]

theorem into_impolite_core_da (c : Convert) (ends : String)
    (ms : List Morpheme) (tok : Morpheme) (lastForms : List ConjugationForm)
    (hw : tok.wordclass = WordClass.auxiliaryVerb) (hb : tok.basic = "だ") :
    into_impolite_core c ends ms tok lastForms =
      (fixlast_impolite c lastForms "だ").map (fun s => morphs_to_string ms ++ s) := by
  rw [into_impolite_core.eq_def, if_pos ⟨hw, hb⟩]

theorem into_impolite_core_masu_verb (c : Convert) (ends : String)
    (ms : List Morpheme) (v masu : Morpheme) (lastForms : List ConjugationForm)
    (hmw : masu.wordclass = WordClass.auxiliaryVerb) (hmb : masu.basic = "ます")
    (hv : v.wordclass = WordClass.verb) :
    into_impolite_core c ends (ms ++ [v]) masu lastForms =
      some (morphs_to_string ms ++
        fix_conv c v.surface v.conjugation.kind v.conjugation.form lastForms) := by
  rw [into_impolite_core.eq_def]
  rw [if_neg (by rw [hmb]; intro hx; exact absurd hx.2 (by decide))]
  rw [if_neg (by rw [hmb]; intro hx; exact absurd hx.2 (by decide))]
  rw [if_neg (by rw [hmb]; intro hx; exact absurd hx.2 (by decide))]
  rw [if_pos ⟨hmw, hmb⟩, pop_last_concat]
  dsimp only
  rw [if_pos hv]

theorem flatten_parts_nil : flatten_parts [] = [] := rfl

theorem flatten_parts_cons (p : Part) (ps : List Part) :
    flatten_parts (p :: ps) = p.morphs ++ p.sep.toList ++ flatten_parts ps := by
  simp [flatten_parts]

theorem flatten_split_loop (rest : List Morpheme) :
    ∀ (level : Nat) (part : List Morpheme),
      flatten_parts (split_loop level part rest) = part ++ rest ∨
      flatten_parts (split_loop level part rest) =
        part ++ rest ++ [create_period "。"] := by
  induction rest with
  | nil =>
      intro level part
      by_cases hp : part.isEmpty
      · left
        rw [split_loop, if_pos hp]
        rw [List.isEmpty_iff.mp hp]
        rfl
      · right
        rw [split_loop, if_neg hp]
        rw [flatten_parts_cons, flatten_parts_nil]
        simp
  | cons m rest ih =>
      intro level part
      rw [split_loop]
      by_cases hb : should_be_break (handle_paren_count level m) m
      · rw [if_pos hb]
        rw [flatten_parts_cons]
        rcases ih (handle_paren_count level m) [] with h | h
        · left
          rw [h]
          simp
        · right
          rw [h]
          simp
      · rw [if_neg hb]
        rcases ih (handle_paren_count level m) (part ++ [m]) with h | h
        · left
          rw [h]
          simp
        · right
          rw [h]
          simp

theorem mapM_none_of_mem {α β : Type} (f : α → Option β) :
    ∀ (l : List α) (x : α), x ∈ l → f x = none → l.mapM f = none := by
  intro l
  induction l with
  | nil =>
      intro x hx
      cases hx
  | cons y ys ih =>
      intro x hx hfx
      rw [List.mapM_cons]
      rcases List.mem_cons.mp hx with rfl | hmem
      · rw [hfx]
        rfl
      · cases hy : f y
        · rfl
        · simp only [hy, Option.bind_eq_bind, Option.some_bind]
          rw [ih x hmem hfx]
          rfl

theorem into_impolite_masu_verb_fallback (c : Convert) (ms : List Morpheme)
    (v masu : Morpheme) (sep : Option Morpheme)
    (lastForms : List ConjugationForm)
    (hmw : masu.wordclass = WordClass.auxiliaryVerb) (hmb : masu.basic = "ます")
    (hv : v.wordclass = WordClass.verb)
    (hall : ∀ t ∈ lastForms,
      c v.surface v.conjugation.kind v.conjugation.form t = none) :
    Part.into_impolite c ⟨ms ++ [v, masu], sep⟩ lastForms =
      some (morphs_to_string ms ++ v.surface ++ sep_surface sep) := by
  have hsplit := into_impolite_split c lastForms sep (ms ++ [v]) masu []
    (by intro m hm; cases hm) (by simp [isEndPost, hmw])
  rw [into_impolite_core_masu_verb c _ ms v masu lastForms hmw hmb hv] at hsplit
  have hfix : fix_conv c v.surface v.conjugation.kind v.conjugation.form
      lastForms = v.surface := by
    unfold fix_conv
    rw [List.findSome?_eq_none_iff.mpr hall]
    rfl
  rw [hfix] at hsplit
  have hj : String.join (List.map Morpheme.surface []) = "" := rfl
  simp only [hj, String.append_empty, Option.map_some'] at hsplit
  rw [List.append_assoc] at hsplit
  exact hsplit

/-- C1 (corrected): concatenating the bodies and separators of all clauses
in order yields the original token sequence whenever that sequence already
ends a clause (or is empty); when a trailing body remains, push_last closes
it with a synthetic period, so the concatenation is the original sequence
followed by exactly that one synthetic 。 token. Either way no input token
is dropped, duplicated, or reordered. -/
theorem c1_lossless_partition_amended (morphs : List Morpheme) :
    flatten_parts (break_into_parts morphs) = morphs ∨
      flatten_parts (break_into_parts morphs) =
        morphs ++ [create_period "。"] := by
  have h := flatten_split_loop morphs 0 []
  simpa [break_into_parts] using h

/-- C1 counterexample: for the single-token input [犬] (no terminal
punctuation) the clauses concatenate to [犬, 。] with a synthetic period, not
to the original sequence [犬]. -/
theorem c1_lossless_partition_cx :
    flatten_parts (break_into_parts [tok_inu]) ≠ [tok_inu] := by
  decide

/-- C2 (confirmed): should_be_break declares a break exactly when the depth
counter is zero and the token is a Period symbol or a conjunction
postpositional with lemma が; at depth at least 1 it never declares a
break. -/
theorem c2_break_condition (level : Nat) (m : Morpheme) :
    (should_be_break level m = true ↔
      level = 0 ∧ (m.wordclass = WordClass.symbol SymbolSub.period ∨
        (m.wordclass = WordClass.postpositional PostpSub.conjunction ∧
          m.basic = "が"))) ∧
    (1 ≤ level → should_be_break level m = false) := by
  constructor
  · unfold should_be_break
    split
    · rename_i hl
      constructor
      · intro hF
        cases hF
      · rintro ⟨h0, _⟩
        omega
    · rename_i hl
      have h0 : level = 0 := by omega
      subst h0
      split
      · rename_i hw
        simp [hw]
      · rename_i hw
        simp [hw, beq_iff_eq]
      · rename_i hw1 hw2
        simp_all
  · intro hl
    unfold should_be_break
    rw [if_pos hl]

/-- C2 witness: a period token at depth 0 breaks; the same token at depth 1
does not. -/
theorem c2_break_condition_wit :
    should_be_break 0 tok_period = true ∧
    should_be_break 1 tok_period = false := by
  constructor
  · exact (c2_break_condition 0 tok_period).1.mpr ⟨rfl, Or.inl rfl⟩
  · exact (c2_break_condition 1 tok_period).2 (by decide)

/-- C3 (code bug): the claim (with the spec) requires the depth counter to
be clamped to zero when close-parens exceed opens. The code instead performs
an unguarded u32 decrement: at depth 0 a CloseParen wraps the counter to
4294967295 (release builds; debug builds panic), so the entire remaining
input is treated as inside parentheses — here the following period no
longer breaks and the whole input becomes a single clause closed by a
synthetic period. -/
theorem c3_paren_underflow_eval :
    handle_paren_count 0 tok_close = 4294967295 ∧
    break_into_parts [tok_close, tok_period] =
      [⟨[tok_close, tok_period], some (create_period "。")⟩] := by
  constructor
  · decide
  · decide

/-- C4 (confirmed): with an AuxiliaryVerb だ head, into_polite emits exactly
the copula-table value for (です, requested slot); the source's fixlast
closure coincides with the spec's five-entry copula table (none outside it);
and a none (panic) in any clause aborts the whole conversion. -/
theorem c4_copula :
    (∀ (c : Convert) (ms : List Morpheme) (tok : Morpheme)
        (sep : Option Morpheme) (lastForm : ConjugationForm),
      tok.wordclass = WordClass.auxiliaryVerb → tok.basic = "だ" →
      Part.into_polite c ⟨ms ++ [tok], sep⟩ lastForm =
        (fixlast_polite "です" lastForm).map
          (fun s => morphs_to_string ms ++ s ++ sep_surface sep)) ∧
    (∀ (orig : String) (lastForm : ConjugationForm),
      fixlast_polite orig lastForm = copula_table_spec orig lastForm) ∧
    (∀ (c : Convert) (morphs : List Morpheme) (p : Part),
      p ∈ break_into_parts morphs →
      Part.into_polite c p ConjugationForm.basic = none →
      to_polite_sentence c morphs = none) := by
  refine ⟨?_, ?_, ?_⟩
  · intro c ms tok sep lastForm hw hb
    have h := into_polite_split c lastForm sep ms tok []
      (by intro m hm; cases hm) (by simp [isEndPost, hw])
    rw [into_polite_core_da c ms tok lastForm hw hb] at h
    rw [h]
    have hj : String.join ([] : List String) = "" := rfl
    cases hf : fixlast_polite "です" lastForm
    · rfl
    · simp [hj]
  · intro orig lastForm
    by_cases h1 : orig = "です"
    · subst h1
      cases lastForm <;> rfl
    · by_cases h2 : orig = "ます"
      · subst h2
        cases lastForm <;> rfl
      · have hspec : copula_table_spec orig lastForm = none := by
          unfold copula_table_spec
          rw [if_neg (fun hx => h1 hx.1), if_neg (fun hx => h1 hx.1),
            if_neg (fun hx => h2 hx.1), if_neg (fun hx => h2 hx.1),
            if_neg (fun hx => h2 hx.1)]
        rw [hspec]
        unfold fixlast_polite
        split <;> simp_all
  · intro c morphs p hp hnone
    unfold to_polite_sentence
    rw [mapM_none_of_mem _ (break_into_parts morphs) p hp hnone]
    rfl

/-- C4 witness: だ at slot Basic becomes です; だ at slot Negative has no
copula-table entry and the conversion aborts. -/
theorem c4_copula_wit :
    Part.into_polite none_convert ⟨[tok_da], none⟩ ConjugationForm.basic =
      some "です" ∧
    Part.into_polite none_convert ⟨[tok_da], none⟩ ConjugationForm.negative =
      none := by
  constructor
  · exact c4_copula.1 none_convert [] tok_da none ConjugationForm.basic rfl rfl
  · exact c4_copula.1 none_convert [] tok_da none ConjugationForm.negative rfl rfl

/-- C5 (confirmed): take_ends peels exactly the maximal trailing run of
End/SupplementaryParallelEnd postpositionals, keeping the prefix intact and
the particle surfaces in original left-to-right order; both transformers
then render the clause as the core result for the untouched prefix and
head, followed by the peeled particles, followed by the separator
surface. -/
theorem c5_particle_peeling :
    (∀ (pre suf : List Morpheme), (∀ m ∈ suf, isEndPost m = true) →
      (∀ tok, pre.getLast? = some tok → isEndPost tok = false) →
      take_ends (pre ++ suf) =
        (pre, String.join (suf.map Morpheme.surface))) ∧
    (∀ (c : Convert) (lastForm : ConjugationForm) (sep : Option Morpheme)
        (pre : List Morpheme) (tok : Morpheme) (suf : List Morpheme),
      (∀ m ∈ suf, isEndPost m = true) → isEndPost tok = false →
      Part.into_polite c ⟨pre ++ tok :: suf, sep⟩ lastForm =
        (into_polite_core c pre tok lastForm).map
          (fun w => w ++ String.join (suf.map Morpheme.surface) ++
            sep_surface sep)) ∧
    (∀ (c : Convert) (lastForms : List ConjugationForm) (sep : Option Morpheme)
        (pre : List Morpheme) (tok : Morpheme) (suf : List Morpheme),
      (∀ m ∈ suf, isEndPost m = true) → isEndPost tok = false →
      Part.into_impolite c ⟨pre ++ tok :: suf, sep⟩ lastForms =
        (into_impolite_core c (String.join (suf.map Morpheme.surface)) pre tok
            lastForms).map
          (fun w => w ++ String.join (suf.map Morpheme.surface) ++
            sep_surface sep)) :=
  ⟨take_ends_append, into_polite_split, into_impolite_split⟩

/-- C5 witness: for the clause だ+か with separator 。, the particle か is
peeled, the predicate is rewritten, and か and 。 are reattached in order by
both transformers. -/
theorem c5_particle_peeling_wit :
    take_ends [tok_da, tok_ka] = ([tok_da], "か") ∧
    Part.into_polite none_convert ⟨[tok_da, tok_ka], some tok_period⟩
      ConjugationForm.basic = some "ですか。" ∧
    Part.into_impolite none_convert ⟨[tok_da, tok_ka], some tok_period⟩
      [ConjugationForm.basic] = some "だか。" := by
  have hsuf : ∀ m ∈ [tok_ka], isEndPost m = true := by
    intro m hm
    rw [List.mem_singleton] at hm
    subst hm
    rfl
  refine ⟨?_, ?_, ?_⟩
  · exact c5_particle_peeling.1 [tok_da] [tok_ka] hsuf
      (by intro t ht; injection ht with h1; subst h1; rfl)
  · have h := c5_particle_peeling.2.1 none_convert ConjugationForm.basic
      (some tok_period) [] tok_da [tok_ka] hsuf rfl
    rw [into_polite_core_da none_convert [] tok_da ConjugationForm.basic rfl rfl]
      at h
    exact h
  · have h := c5_particle_peeling.2.2 none_convert [ConjugationForm.basic]
      (some tok_period) [] tok_da [tok_ka] hsuf rfl
    rw [into_impolite_core_da none_convert _ [] tok_da [ConjugationForm.basic]
      rfl rfl] at h
    exact h

/-- C6 (corrected): the continuative construction dispatches on the paradigm
exactly as specified, but only the suru-compound, nai/tai, and default
branches route through the InflectionAdapter (and there adapter failure is
fatal); the zuru-compound branch (strip ずる, append じ) and the single-row
る branch (pass the lemma through) are computed without consulting the
adapter and cannot fail. -/
theorem c6_continuative_amended :
    (∀ (c : Convert) (b s : String) (f : ConjugationForm),
      make_continuous c b s ⟨ConjugationKind.sahenSuruConnected, f⟩ =
        c s ConjugationKind.sahenSuruConnected f ConjugationForm.negative) ∧
    (∀ (c : Convert) (b s : String) (f : ConjugationForm),
      make_continuous c b s ⟨ConjugationKind.sahenZuruConnected, f⟩ =
        some (String.mk b.data.dropLast.dropLast ++ "じ")) ∧
    (∀ (c : Convert) (b s : String) (f : ConjugationForm),
      make_continuous c b s ⟨ConjugationKind.ichidanRu, f⟩ = some b) ∧
    (∀ (c : Convert) (b s : String) (f : ConjugationForm),
      make_continuous c b s ⟨ConjugationKind.specialNai, f⟩ =
        c s ConjugationKind.specialNai f ConjugationForm.continuousDe ∧
      make_continuous c b s ⟨ConjugationKind.specialTai, f⟩ =
        c s ConjugationKind.specialTai f ConjugationForm.continuousDe) ∧
    (∀ (c : Convert) (b s : String) (conj : Conjugation),
      conj.kind ≠ ConjugationKind.sahenSuruConnected →
      conj.kind ≠ ConjugationKind.sahenZuruConnected →
      conj.kind ≠ ConjugationKind.ichidanRu →
      conj.kind ≠ ConjugationKind.specialNai →
      conj.kind ≠ ConjugationKind.specialTai →
      make_continuous c b s conj =
        c s conj.kind conj.form ConjugationForm.continuous) ∧
    (∀ (b s : String) (conj : Conjugation),
      make_continuous none_convert b s conj = none ↔
        (conj.kind ≠ ConjugationKind.sahenZuruConnected ∧
         conj.kind ≠ ConjugationKind.ichidanRu)) := by
  refine ⟨fun c b s f => rfl, fun c b s f => rfl, fun c b s f => rfl,
    fun c b s f => ⟨rfl, rfl⟩, ?_, ?_⟩
  · intro c b s conj h1 h2 h3 h4 h5
    obtain ⟨k, f⟩ := conj
    cases k <;> simp_all [make_continuous]
  · intro b s conj
    obtain ⟨k, f⟩ := conj
    cases k <;> simp [make_continuous, none_convert]

/-- C6 witness: a paradigm outside the special cases takes the default
branch, which routes through the adapter, so the always-failing adapter is
fatal there. -/
theorem c6_continuative_wit :
    make_continuous none_convert "走る" "走っ"
      ⟨ConjugationKind.otherKind, ConjugationForm.continuousTa⟩ = none := by
  exact c6_continuative_amended.2.2.2.2.1 none_convert "走る" "走っ"
    ⟨ConjugationKind.otherKind, ConjugationForm.continuousTa⟩
    (by decide) (by decide) (by decide) (by decide) (by decide)

/-- C6 counterexample: with the always-failing adapter, the zuru-compound
branch still succeeds (論ずる to 論じ), so it does not route through the
InflectionAdapter and adapter failure is not fatal in every branch of the
construction. -/
theorem c6_continuative_cx :
    make_continuous none_convert "論ずる" "論ずる"
      ⟨ConjugationKind.sahenZuruConnected, ConjugationForm.basic⟩ =
      some "論じ" := by
  decide

set_option maxHeartbeats 2000000 in
set_option maxRecDepth 8000 in
theorem into_impolite_total : ∀ (n : Nat),
    (∀ (c : Convert) (ends : String) (ms : List Morpheme) (tok : Morpheme)
        (lastForms : List ConjugationForm), 2 * (ms.length + 1) ≤ n →
      (into_impolite_core c ends ms tok lastForms).isSome = true) ∧
    (∀ (c : Convert) (q : Part) (lastForms : List ConjugationForm),
      2 * q.morphs.length + 1 ≤ n →
      (Part.into_impolite c q lastForms).isSome = true) := by
  intro n
  induction n with
  | zero =>
      constructor
      · intro c ends ms tok lastForms hle
        exact absurd hle (by omega)
      · intro c q lastForms hle
        exact absurd hle (by omega)
  | succ n ih =>
      obtain ⟨_, ihw⟩ := ih
      have hcore : ∀ (c : Convert) (ends : String) (ms : List Morpheme)
          (tok : Morpheme) (lastForms : List ConjugationForm),
          2 * (ms.length + 1) ≤ n + 1 →
          (into_impolite_core c ends ms tok lastForms).isSome = true := by
        intro c ends ms tok lastForms hle
        rw [into_impolite_core.eq_def]
        by_cases h1 : tok.wordclass = WordClass.auxiliaryVerb ∧ tok.basic = "だ"
        · rw [if_pos h1]
          rfl
        rw [if_neg h1]
        by_cases h2 : tok.wordclass = WordClass.auxiliaryVerb ∧ tok.basic = "ある"
        · rw [if_pos h2]
          rfl
        rw [if_neg h2]
        by_cases h3 : tok.wordclass = WordClass.auxiliaryVerb ∧ tok.basic = "です"
        · rw [if_pos h3]
          cases hpop : pop_last ms with
          | none =>
              dsimp only
              by_cases hE : ends.isEmpty = true
              · rw [if_pos hE]
                rfl
              · rw [if_neg hE]
                rfl
          | some pr =>
              obtain ⟨ms2, prior⟩ := pr
              dsimp only
              by_cases g1 : prior.wordclass = WordClass.adjective
              · rw [if_pos g1]
                rfl
              rw [if_neg g1]
              by_cases g2 : prior.wordclass = WordClass.auxiliaryVerb ∧
                prior.basic = "た"
              · rw [if_pos g2]
                rfl
              rw [if_neg g2]
              by_cases hE : ends.isEmpty = true
              · rw [if_pos hE]
                rfl
              · rw [if_neg hE]
                rfl
        rw [if_neg h3]
        by_cases h4 : tok.wordclass = WordClass.auxiliaryVerb ∧ tok.basic = "ます"
        · rw [if_pos h4]
          cases hpop : pop_last ms with
          | none => rfl
          | some pr =>
              obtain ⟨ms2, prior⟩ := pr
              dsimp only
              by_cases g1 : prior.wordclass = WordClass.verb
              · rw [if_pos g1]
                rfl
              · rw [if_neg g1]
                rfl
        rw [if_neg h4]
        by_cases h5 : tok.wordclass = WordClass.auxiliaryVerb ∧ tok.basic = "う"
        · rw [if_pos h5]
          cases hpop : pop_last ms with
          | none => rfl
          | some pr =>
              obtain ⟨ms2, prior⟩ := pr
              dsimp only
              by_cases g1 : prior.wordclass = WordClass.auxiliaryVerb ∧
                prior.basic = "です"
              · rw [if_pos g1]
                rfl
              rw [if_neg g1]
              by_cases g2 : prior.wordclass = WordClass.auxiliaryVerb ∧
                prior.basic = "ます"
              · rw [if_pos g2]
                cases hpop2 : pop_last ms2 with
                | none => rfl
                | some pr2 =>
                    obtain ⟨ms3, further⟩ := pr2
                    rfl
              · rw [if_neg g2]
                rfl
        rw [if_neg h5]
        by_cases h6 : tok.wordclass = WordClass.auxiliaryVerb ∧ tok.basic = "ん"
        · rw [if_pos h6]
          cases hpop : pop_last ms with
          | none => rfl
          | some pr =>
              obtain ⟨ms2, prior⟩ := pr
              dsimp only
              by_cases g1 : prior.wordclass = WordClass.auxiliaryVerb ∧
                prior.basic = "ます"
              · rw [if_pos g1]
                cases hpop2 : pop_last ms2 with
                | none => rfl
                | some pr2 =>
                    obtain ⟨ms3, further⟩ := pr2
                    dsimp only
                    by_cases g2 : further.wordclass = WordClass.verb ∧
                      further.basic = "ある"
                    · rw [if_pos g2]
                      rfl
                    · rw [if_neg g2]
                      rfl
              · rw [if_neg g1]
                rfl
        rw [if_neg h6]
        by_cases h7 : tok.wordclass = WordClass.auxiliaryVerb ∧ tok.basic = "た"
        · rw [if_pos h7]
          split
          · rename_i ms2 prior hpop
            by_cases g1 : prior.wordclass = WordClass.auxiliaryVerb ∧
              prior.basic = "です"
            · rw [if_pos g1]
              have hlen := pop_last_length hpop
              have hrec := ihw c ⟨ms2 ++ [prior], none⟩
                [ConjugationForm.continuousTa, ConjugationForm.continuous]
                (by
                  dsimp only
                  simp only [List.length_append, List.length_cons,
                    List.length_nil]
                  omega)
              obtain ⟨w, hw⟩ := Option.isSome_iff_exists.mp hrec
              rw [hw]
              rfl
            rw [if_neg g1]
            by_cases g2 : prior.wordclass = WordClass.auxiliaryVerb ∧
              prior.basic = "ます"
            · rw [if_pos g2]
              cases hpop2 : pop_last ms2 with
              | none => rfl
              | some pr2 =>
                  obtain ⟨ms3, further⟩ := pr2
                  rfl
            · rw [if_neg g2]
              rfl
          · rfl
        rw [if_neg h7]
        rfl
      have hwrap : ∀ (c : Convert) (q : Part)
          (lastForms : List ConjugationForm),
          2 * q.morphs.length + 1 ≤ n + 1 →
          (Part.into_impolite c q lastForms).isSome = true := by
        intro c q lastForms hle
        rw [Part.into_impolite.eq_def]
        split
        · simp
        · rename_i ms tok h
          have hlen := pop_last_length h
          have hte := take_ends_fst_length_le q.morphs
          simp only [Option.isSome_map']
          exact hcore c _ ms tok lastForms (by omega)
      exact ⟨hcore, hwrap⟩

/-- C7 (corrected): adapter failure is fatal in the PoliteTransformer's
continuative construction (in every branch that consults the adapter); but
in the PlainTransformer every adapter invocation goes through fix, which
falls back to the unchanged input surface whenever all requested target
forms fail — including in predicate-specific rules such as the ます rule,
not only in the generic default rule; consequently the PlainTransformer
never aborts on any clause for any adapter. -/
theorem c7_adapter_failure_amended :
    (∀ (c : Convert) (orig : String) (kind : ConjugationKind)
        (fromForm : ConjugationForm) (toForms : List ConjugationForm),
      (∀ t ∈ toForms, c orig kind fromForm t = none) →
      fix_conv c orig kind fromForm toForms = orig) ∧
    (∀ (b s : String) (conj : Conjugation),
      conj.kind ≠ ConjugationKind.sahenZuruConnected →
      conj.kind ≠ ConjugationKind.ichidanRu →
      make_continuous none_convert b s conj = none) ∧
    (∀ (c : Convert) (ms : List Morpheme) (v masu : Morpheme)
        (sep : Option Morpheme) (lastForms : List ConjugationForm),
      masu.wordclass = WordClass.auxiliaryVerb → masu.basic = "ます" →
      v.wordclass = WordClass.verb →
      (∀ t ∈ lastForms,
        c v.surface v.conjugation.kind v.conjugation.form t = none) →
      Part.into_impolite c ⟨ms ++ [v, masu], sep⟩ lastForms =
        some (morphs_to_string ms ++ v.surface ++ sep_surface sep)) ∧
    (∀ (c : Convert) (q : Part) (lastForms : List ConjugationForm),
      (Part.into_impolite c q lastForms).isSome = true) := by
  refine ⟨?_, ?_, ?_, ?_⟩
  · intro c orig kind fromForm toForms hall
    unfold fix_conv
    rw [List.findSome?_eq_none_iff.mpr hall]
    rfl
  · intro b s conj h1 h2
    obtain ⟨k, f⟩ := conj
    cases k <;> simp_all [make_continuous, none_convert]
  · exact into_impolite_masu_verb_fallback
  · intro c q lastForms
    exact (into_impolite_total (2 * q.morphs.length + 1)).2 c q lastForms le_rfl

/-- C7 witness: a failing adapter makes fix fall back to the unchanged
surface, while the continuative construction's suru branch aborts. -/
theorem c7_adapter_failure_wit :
    fix_conv none_convert "書く" ConjugationKind.otherKind ConjugationForm.basic
      [ConjugationForm.basic] = "書く" ∧
    make_continuous none_convert "する" "し"
      ⟨ConjugationKind.sahenSuruConnected, ConjugationForm.basic⟩ = none := by
  constructor
  · exact c7_adapter_failure_amended.1 none_convert "書く"
      ConjugationKind.otherKind ConjugationForm.basic [ConjugationForm.basic]
      (by intro t ht; rfl)
  · exact c7_adapter_failure_amended.2.1 "する" "し"
      ⟨ConjugationKind.sahenSuruConnected, ConjugationForm.basic⟩
      (by decide) (by decide)

/-- C7 counterexample: with the always-failing adapter, the PlainTransformer
renders the clause 書く+ます through the ます rule — a predicate-specific
rule, not the generic default rule — by falling back to the unchanged verb
surface instead of aborting, so fallback is not confined to the default
rule and adapter failure is not fatal there. -/
theorem c7_adapter_failure_cx :
    Part.into_impolite none_convert ⟨[tok_kaku, tok_masu], none⟩
      [ConjugationForm.basic] = some "書く" := by
  exact into_impolite_masu_verb_fallback none_convert [] tok_kaku tok_masu none
    [ConjugationForm.basic] rfl rfl rfl (by intro t ht; rfl)

/-- C8 (confirmed): when the predicate head after particle peeling has lemma
です or ます, into_polite passes the body content through unchanged — the
preceding surfaces concatenated with the head's surface — only reattaching
the peeled particles and the separator, for every requested slot. -/
theorem c8_idempotent (c : Convert) (ms : List Morpheme) (tok : Morpheme)
    (suf : List Morpheme) (sep : Option Morpheme)
    (lastForm : ConjugationForm)
    (hsuf : ∀ m ∈ suf, isEndPost m = true) (htok : isEndPost tok = false)
    (hb : tok.basic = "です" ∨ tok.basic = "ます") :
    Part.into_polite c ⟨ms ++ tok :: suf, sep⟩ lastForm =
      some (morphs_to_string ms ++ tok.surface ++
        String.join (suf.map Morpheme.surface) ++ sep_surface sep) := by
  rw [into_polite_split c lastForm sep ms tok suf hsuf htok,
    into_polite_core_already c ms tok lastForm hb]
  rfl

/-- C8 witness: 犬+です+か with separator 。 is passed through unchanged
(even at a non-Basic requested slot). -/
theorem c8_idempotent_wit :
    Part.into_polite none_convert ⟨[tok_inu, tok_desu, tok_ka], some tok_period⟩
      ConjugationForm.negativeU = some "犬ですか。" := by
  exact c8_idempotent none_convert [tok_inu] tok_desu [tok_ka]
    (some tok_period) ConjugationForm.negativeU
    (by intro m hm; rw [List.mem_singleton] at hm; subst hm; rfl)
    rfl (Or.inl rfl)

/-- C10 (confirmed): on an empty tokenization both entry points return the
empty string, and a clause whose body is empty after particle peeling is
rendered as just the peeled particle surfaces followed by the separator
surface, independently of the adapter and requested slots. -/
theorem c10_empty (c : Convert) (lastForm : ConjugationForm)
    (lastForms : List ConjugationForm) (es : List Morpheme)
    (sep : Option Morpheme) (hes : ∀ m ∈ es, isEndPost m = true) :
    to_polite_sentence c [] = some "" ∧
    to_impolite_sentence c [] = some "" ∧
    Part.into_polite c ⟨es, sep⟩ lastForm =
      some (String.join (es.map Morpheme.surface) ++ sep_surface sep) ∧
    Part.into_impolite c ⟨es, sep⟩ lastForms =
      some (String.join (es.map Morpheme.surface) ++ sep_surface sep) :=
  ⟨rfl, rfl, into_polite_all_ends c lastForm sep es hes,
   into_impolite_all_ends c lastForms sep es hes⟩

/-- C10 witness: the empty input maps to the empty string, and the
particles-only clause か+。 renders as か。 with no rule dispatched. -/
theorem c10_empty_wit :
    to_polite_sentence none_convert [] = some "" ∧
    Part.into_polite none_convert ⟨[tok_ka], some tok_period⟩
      ConjugationForm.basic = some "か。" := by
  have h := c10_empty none_convert ConjugationForm.basic
    [ConjugationForm.basic] [tok_ka] (some tok_period)
    (by intro m hm; rw [List.mem_singleton] at hm; subst hm; rfl)
  exact ⟨h.1, h.2.2.1⟩

set_option maxHeartbeats 2000000 in
/-- C9 (confirmed): both transformers terminate on every clause; the
recursion depth (number of nested transformer invocations, mirrored by the
depth functions) is bounded by the clause body length plus one, because
every recursive self-invocation (た over ない, う and ん on the polite side,
た over です on the plain side) receives a strictly shorter token list. -/
theorem c9_termination (p : Part) :
    into_polite_depth p ≤ p.morphs.length + 1 ∧
    into_impolite_depth p ≤ p.morphs.length + 1 := by
  have key : ∀ n : Nat,
      (∀ (ms : List Morpheme) (tok : Morpheme), 2 * (ms.length + 1) ≤ n →
        into_polite_core_depth ms tok ≤ ms.length + 1) ∧
      (∀ q : Part, 2 * q.morphs.length + 1 ≤ n →
        into_polite_depth q ≤ q.morphs.length + 1) ∧
      (∀ (ms : List Morpheme) (tok : Morpheme), 2 * (ms.length + 1) ≤ n →
        into_impolite_core_depth ms tok ≤ ms.length + 1) ∧
      (∀ q : Part, 2 * q.morphs.length + 1 ≤ n →
        into_impolite_depth q ≤ q.morphs.length + 1) := by
    intro n
    induction n with
    | zero =>
        refine ⟨?_, ?_, ?_, ?_⟩
        · intro ms tok hle
          exact absurd hle (by omega)
        · intro q hle
          exact absurd hle (by omega)
        · intro ms tok hle
          exact absurd hle (by omega)
        · intro q hle
          exact absurd hle (by omega)
    | succ n ih =>
        obtain ⟨_, ihp, _, ihi⟩ := ih
        have hpc : ∀ (ms : List Morpheme) (tok : Morpheme),
            2 * (ms.length + 1) ≤ n + 1 →
            into_polite_core_depth ms tok ≤ ms.length + 1 := by
          intro ms tok hle
          rw [into_polite_core_depth.eq_def]
          split_ifs with h1 h2 h3 h4 h5 h6 h7 h8
          · omega
          · omega
          · omega
          · omega
          · omega
          · split
            · rename_i ms2 prior h
              have hlen := pop_last_length h
              split_ifs with g1 g2 g3 g4 g5
              · omega
              · omega
              · omega
              · omega
              · have hrec := ihp ⟨ms2 ++ [prior], none⟩
                  (by
                    dsimp only
                    simp only [List.length_append, List.length_cons,
                      List.length_nil]
                    omega)
                dsimp only at hrec
                simp only [List.length_append, List.length_cons,
                  List.length_nil] at hrec
                omega
              · omega
            · omega
          · have hrec := ihp ⟨ms, none⟩ (by dsimp only; omega)
            dsimp only at hrec
            exact hrec
          · have hrec := ihp ⟨ms, none⟩ (by dsimp only; omega)
            dsimp only at hrec
            exact hrec
          · omega
        have hp : ∀ q : Part, 2 * q.morphs.length + 1 ≤ n + 1 →
            into_polite_depth q ≤ q.morphs.length + 1 := by
          intro q hle
          rw [into_polite_depth.eq_def]
          split
          · omega
          · rename_i ms tok h
            have hlen := pop_last_length h
            have hte := take_ends_fst_length_le q.morphs
            have hcore := hpc ms tok (by omega)
            omega
        have hic : ∀ (ms : List Morpheme) (tok : Morpheme),
            2 * (ms.length + 1) ≤ n + 1 →
            into_impolite_core_depth ms tok ≤ ms.length + 1 := by
          intro ms tok hle
          rw [into_impolite_core_depth.eq_def]
          split_ifs with h1 h2 h3 h4 h5 h6 h7
          · omega
          · omega
          · omega
          · omega
          · omega
          · omega
          · split
            · rename_i ms2 prior h
              have hlen := pop_last_length h
              split_ifs with g1
              · have hrec := ihi ⟨ms2 ++ [prior], none⟩
                  (by
                    dsimp only
                    simp only [List.length_append, List.length_cons,
                      List.length_nil]
                    omega)
                dsimp only at hrec
                simp only [List.length_append, List.length_cons,
                  List.length_nil] at hrec
                omega
              · omega
            · omega
          · omega
        have hi : ∀ q : Part, 2 * q.morphs.length + 1 ≤ n + 1 →
            into_impolite_depth q ≤ q.morphs.length + 1 := by
          intro q hle
          rw [into_impolite_depth.eq_def]
          split
          · omega
          · rename_i ms tok h
            have hlen := pop_last_length h
            have hte := take_ends_fst_length_le q.morphs
            have hcore := hic ms tok (by omega)
            omega
        exact ⟨hpc, hp, hic, hi⟩
  exact ⟨(key (2 * p.morphs.length + 1)).2.1 p le_rfl,
    (key (2 * p.morphs.length + 1)).2.2.2 p le_rfl⟩

end ToPolite
